import Mathlib

/-!
Verification of the MCTS terrain-pipeline core (src/mcts.py) against its
natural-language specification.  The Python code is shallowly embedded:
Python integers become `Int`, Python arithmetic right shift `v >> k` becomes
flooring division by `2 ^ k` (`Int.fdiv`), and Python `v & m` for a mask
`m = 2 ^ t - 1` becomes the flooring remainder `Int.fmod v (m + 1)`, which
for a positive modulus is always the nonnegative remainder, exactly as in
Python.  Dictionaries become association lists or explicit lookup
functions, and the stateful stage loops become pure folds over the item
list together with oracles for the externally determined events (file
already exists, reprojection failure, checkpoint-interval elapsed,
region-save failure).
-/

namespace MCTS

/-! ## Coordinate partitioner (organize_by_region, src/mcts.py lines 289-312)

Python `x >> 9` on unbounded integers is an arithmetic (flooring) shift:
`x >> k = floor(x / 2^k)`.  Python `x & m` for `m = 2^t - 1` equals
`x mod 2^t` with a nonnegative result.  `Int.fdiv`/`Int.fmod` have exactly
these semantics. -/

/-- Python arithmetic right shift on unbounded integers: `v >> k`. -/
def shr (v : Int) (k : Nat) : Int := Int.fdiv v (2 ^ k)

/-- Python bitwise AND against the all-ones mask `2 ^ t - 1`: `v & (2^t - 1)`. -/
def maskLow (v : Int) (t : Nat) : Int := Int.fmod v (2 ^ t)

/-- `region_x = x >> 9` from organize_by_region: the region coordinate of a
world coordinate (512 blocks per region). -/
def regionCoord (v : Int) : Int := shr v 9

/-- `chunk_x = (x >> 4) & 31` from organize_by_region: the chunk coordinate
inside the region (32 chunks per region axis). -/
def chunkCoord (v : Int) : Int := maskLow (shr v 4) 5

/-- `block_x = x & 15` from organize_by_region: the block coordinate inside
the chunk (16 blocks per chunk axis). -/
def blockCoord (v : Int) : Int := maskLow v 4

/-- The (region, chunk, block) triple organize_by_region computes for one
world coordinate pair (x, z). -/
def decompose (x z : Int) : (Int × Int) × (Int × Int) × (Int × Int) :=
  ((regionCoord x, regionCoord z),
   (chunkCoord x, chunkCoord z),
   (blockCoord x, blockCoord z))

/-- Modelled from the spec: recombination of a (region, chunk, block) triple
into a world coordinate, per the geometry of section 4.3 (512 blocks per
region, 16 per chunk): `x = region * 512 + chunk * 16 + block`.  No
recombination function appears in the source; the spec asserts the triple
"recombines to the original (x, z)". -/
def recombine (t : (Int × Int) × (Int × Int) × (Int × Int)) : Int × Int :=
  (t.1.1 * 512 + t.2.1.1 * 16 + t.2.2.1,
   t.1.2 * 512 + t.2.1.2 * 16 + t.2.2.2)

lemma shr_eq_ediv (v : Int) (k : Nat) : shr v k = v / (2 ^ k : Int) := by
  unfold shr
  exact Int.fdiv_eq_ediv v (by positivity)

lemma maskLow_eq_emod (v : Int) (t : Nat) : maskLow v t = v % (2 ^ t : Int) := by
  unfold maskLow
  exact Int.fmod_eq_emod v (by positivity)

lemma recombine_decompose_coord (v : Int) :
    regionCoord v * 512 + chunkCoord v * 16 + blockCoord v = v := by
  unfold regionCoord chunkCoord blockCoord
  rw [shr_eq_ediv, maskLow_eq_emod, shr_eq_ediv, maskLow_eq_emod]
  norm_num
  omega

/-- C1 For every pair of integers (x, z), decomposing with the fixed-radix
partitioner of organize_by_region and recombining the (region, chunk,
block) triple yields exactly the original (x, z); consequently the
decomposition is collision-free (injective), including for negative
coordinates. -/
theorem decompose_recombine_roundtrip :
    (∀ x z : Int, recombine (decompose x z) = (x, z)) ∧
    (∀ p q : Int × Int, decompose p.1 p.2 = decompose q.1 q.2 → p = q) := by
  have hround : ∀ x z : Int, recombine (decompose x z) = (x, z) := by
    intro x z
    unfold recombine decompose
    simp only
    rw [recombine_decompose_coord, recombine_decompose_coord]
  refine ⟨hround, ?_⟩
  intro p q h
  have h1 := hround p.1 p.2
  have h2 := hround q.1 q.2
  rw [h] at h1
  exact (h1.symm.trans h2 : (p.1, p.2) = (q.1, q.2))

/-- C1 witness: the roundtrip and the injectivity conclusion instantiated at
the concrete coordinates (-513, 300). -/
theorem decompose_recombine_roundtrip_witness :
    recombine (decompose (-513) 300) = (-513, 300) ∧
    ((-513 : Int), (300 : Int)) = ((-513 : Int), (300 : Int)) :=
  ⟨decompose_recombine_roundtrip.1 (-513) 300,
   decompose_recombine_roundtrip.2 (-513, 300) (-513, 300) rfl⟩

/-- C8 The region coordinate `v >> 9` is a flooring (arithmetic) shift, so
the boundary values hold: region(511) = 0, region(512) = 1,
region(-1) = -1, region(-512) = -1, region(-513) = -2. -/
theorem regionCoord_boundaries :
    regionCoord 511 = 0 ∧ regionCoord 512 = 1 ∧ regionCoord (-1) = -1 ∧
    regionCoord (-512) = -1 ∧ regionCoord (-513) = -2 := by
  decide

/-! ## Batch coordinate map (process_tiff_simple lines 279-284, s2 lines 571-576)

`coords_data[(x, z)] = y` inside one tile and `batch_coords.update(coords)`
across the tiles of a batch are both in-order dictionary insertion with
overwrite at a duplicate key.  The whole batch is therefore one insertion
sequence; we embed the dictionary as a lookup function and insertion as
pointwise function update. -/

/-- One sample: an (x, z) key with its elevation. -/
abbrev Sample := (Int × Int) × Int

/-- Dictionary insertion `d[(x, z)] = y`: overwrite the value at the key. -/
def insertSample (m : Int × Int → Option Int) (s : Sample) : Int × Int → Option Int :=
  fun k => if k = s.1 then some s.2 else m k

/-- The batch coordinate map obtained by inserting the samples in order into
an initially empty dictionary (tile-internal inserts followed by
`batch_coords.update` for each tile of the batch). -/
def buildMap (samples : List Sample) : Int × Int → Option Int :=
  samples.foldl insertSample (fun _ => none)

/-- Modelled from the spec: "later-processed sample at a duplicate key
overwrites the earlier one" — the value the spec assigns to a key is the
elevation of the last sample of the sequence carrying that key. -/
def lastValueAt (samples : List Sample) (k : Int × Int) : Option Int :=
  (samples.reverse.find? (fun s => decide (s.1 = k))).map Prod.snd

lemma foldl_insertSample_eq (samples : List Sample) :
    ∀ (m : Int × Int → Option Int) (k : Int × Int),
      (samples.foldl insertSample m) k =
        match lastValueAt samples k with
        | some v => some v
        | none => m k := by
  induction samples with
  | nil => intro m k; simp [lastValueAt]
  | cons s rest ih =>
    intro m k
    have hrev : (s :: rest).reverse = rest.reverse ++ [s] := by simp
    simp only [List.foldl_cons, ih (insertSample m s) k, lastValueAt, hrev,
      List.find?_append]
    cases hfind : rest.reverse.find? (fun t => decide (t.1 = k)) with
    | some v => simp [hfind]
    | none =>
      simp only [hfind, Option.none_or]
      by_cases hk : s.1 = k
      · simp [List.find?, hk, insertSample]
      · simp [List.find?, hk, insertSample, Ne.symm hk]

/-- C7 Within one batch the coordinate map deduplicates by (x, z) key with
last-write-wins: for every insertion sequence (one tile's samples in cell
order, then each later tile of the batch in processing order) and every
key, the final batch map holds exactly the elevation of the last-inserted
sample at that key (and nothing at keys never inserted). -/
theorem buildMap_last_write_wins (samples : List Sample) (k : Int × Int) :
    buildMap samples k = lastValueAt samples k := by
  unfold buildMap
  rw [foldl_insertSample_eq]
  cases lastValueAt samples k <;> rfl

/-! ## Elevation floor estimator (s2, src/mcts.py lines 519-541)

On a fresh run s2 initialises `me = 0`, walks the first
`min(100, len(tfs))` tiles, and lowers `me` to each tile minimum that is
below it; tiles whose extraction yields nothing (`cm is None`) are
skipped.  On a resumed run with `min_elevation` already in the checkpoint
the stored value is used unchanged.  We embed each tile by its extracted
minimum (`none` when process_tiff_simple returns None). -/

/-- One step of the sampling loop: `if cm is not None and cm < me: me = cm`. -/
def floorStep (me : Int) (cm : Option Int) : Int :=
  match cm with
  | some c => if c < me then c else me
  | none => me

/-- The elevation floor s2 computes on a fresh run from the per-tile minima
of the generation-stage input set: fold over the prefix of at most 100
tiles starting from `me = 0`. -/
def computeFloor (mins : List (Option Int)) : Int :=
  (mins.take (min 100 mins.length)).foldl floorStep 0

/-- The per-tile minima actually observed in the sampled prefix (tiles whose
extraction returned nothing contribute no minimum). -/
def sampledMins (mins : List (Option Int)) : List Int :=
  (mins.take (min 100 mins.length)).filterMap id

/-- The floor s2 uses: the checkpoint value when `min_elevation` is already
stored, otherwise the freshly computed sampled floor. -/
def s2Floor (stored : Option Int) (mins : List (Option Int)) : Int :=
  match stored with
  | some v => v
  | none => computeFloor mins

/-- C3 counterexample: a fresh run over a single tile whose minimum
elevation is 5 persists floor 0, not the minimum 5 of the per-tile minima
over the sampled prefix — the loop starts at 0 and only ever lowers. -/
theorem computeFloor_ne_prefix_min :
    sampledMins [some 5] = [5] ∧ computeFloor [some 5] = 0 ∧
    computeFloor [some 5] ≠ 5 := by
  refine ⟨rfl, rfl, ?_⟩
  decide

lemma foldl_floorStep_le (l : List (Option Int)) :
    ∀ a : Int, l.foldl floorStep a ≤ a := by
  induction l with
  | nil => intro a; exact le_refl a
  | cons c rest ih =>
    intro a
    refine le_trans (ih (floorStep a c)) ?_
    cases c with
    | none => exact le_refl a
    | some v =>
      simp only [floorStep]
      split <;> omega

lemma foldl_floorStep_mem (l : List (Option Int)) :
    ∀ a : Int, l.foldl floorStep a = a ∨ some (l.foldl floorStep a) ∈ l := by
  induction l with
  | nil => intro a; exact Or.inl rfl
  | cons c rest ih =>
    intro a
    rcases ih (floorStep a c) with h | h
    · rw [List.foldl_cons, h]
      cases c with
      | none => exact Or.inl rfl
      | some v =>
        simp only [floorStep]
        split
        · exact Or.inr (by simp)
        · exact Or.inl rfl
    · exact Or.inr (List.mem_cons_of_mem _ h)

lemma foldl_floorStep_le_mem (l : List (Option Int)) :
    ∀ (a : Int) (v : Int), some v ∈ l → l.foldl floorStep a ≤ v := by
  induction l with
  | nil => intro a v h; cases h
  | cons c rest ih =>
    intro a v h
    rcases List.mem_cons.mp h with h | h
    · subst h
      refine le_trans (foldl_floorStep_le rest _) ?_
      simp only [floorStep]
      split <;> omega
    · exact ih _ v h

/-- C3 amended: on a fresh run the persisted floor is the minimum of 0 and
the per-tile minima over the sampled prefix of at most 100 tiles — it is
never positive, it is a lower bound on every sampled per-tile minimum, and
it is either the initial 0 or one of the sampled minima. -/
theorem computeFloor_min_with_zero (mins : List (Option Int)) :
    computeFloor mins ≤ 0 ∧
    (∀ v ∈ sampledMins mins, computeFloor mins ≤ v) ∧
    (computeFloor mins = 0 ∨ computeFloor mins ∈ sampledMins mins) := by
  unfold computeFloor sampledMins
  refine ⟨foldl_floorStep_le _ 0, ?_, ?_⟩
  · intro v hv
    rcases List.mem_filterMap.mp hv with ⟨o, ho, hid⟩
    cases o with
    | none => cases hid
    | some w => cases hid; exact foldl_floorStep_le_mem _ 0 v ho
  · rcases foldl_floorStep_mem (mins.take (min 100 mins.length)) 0 with h | h
    · exact Or.inl h
    · exact Or.inr ((List.mem_filterMap).mpr ⟨some _, h, rfl⟩)

/-- C3 amended witness: the characterization applied at the concrete minima
list [some 5, none, some (-3)], whose sampled minimum -3 bounds the floor. -/
theorem computeFloor_min_with_zero_witness :
    computeFloor [some 5, none, some (-3)] ≤ -3 :=
  (computeFloor_min_with_zero [some 5, none, some (-3)]).2.1 (-3) (by decide)

/-- C9 For every resumed generation run whose checkpoint already stores an
elevation floor, s2 uses exactly the stored value: the result is the
stored floor and is independent of the current input set's per-tile
minima, so no re-sampling can change it. -/
theorem s2Floor_uses_stored (v : Int) (mins mins2 : List (Option Int)) :
    s2Floor (some v) mins = v ∧ s2Floor (some v) mins = s2Floor (some v) mins2 := by
  exact ⟨rfl, rfl⟩

/-! ## Stage 1: reprojection loop (s1, src/mcts.py lines 405-490)

Each input tile is embedded by the three externally determined events of
its loop iteration: its reprojected output already exists (the `continue`
at the existence check), its reprojection raises (the `except` branch),
and whether the 10-second checkpoint interval has elapsed when the
time-gated save is reached (only reached on the success path).  The loop
carries the processed/skipped bookkeeping and the list of cursor values
written by `save_checkpoint`, with `i` the 1-based item index as in
`enumerate(tfs[start_idx:], start_idx + 1)`.  After the loop s1
unconditionally persists `step1_progress = len(tfs)` and
`step1_complete = True` and returns True; the only False return is the
empty input list. -/

/-- The per-iteration event oracle for one stage-1 input tile. -/
structure TileItem where
  outExists : Bool
  fails : Bool
  elapsed : Bool
deriving DecidableEq

/-- The loop bookkeeping: 1-based indices of processed and skipped items and
the cursor values saved by the time-gated checkpoint writes, in order. -/
structure S1State where
  processedIdx : List Nat
  skippedIdx : List Nat
  savedCursors : List Nat
deriving DecidableEq

/-- The body of s1's reprojection loop over the remaining items, `i` being
the 1-based index of the next item. -/
def s1Loop : List TileItem → Nat → S1State → S1State
  | [], _, st => st
  | a :: rest, i, st =>
    if a.outExists then
      s1Loop rest (i + 1) ⟨st.processedIdx, st.skippedIdx ++ [i], st.savedCursors⟩
    else if a.fails then
      s1Loop rest (i + 1) st
    else if a.elapsed then
      s1Loop rest (i + 1) ⟨st.processedIdx ++ [i], st.skippedIdx, st.savedCursors ++ [i]⟩
    else
      s1Loop rest (i + 1) ⟨st.processedIdx ++ [i], st.skippedIdx, st.savedCursors⟩

/-- The observable outcome of one s1 call: the returned Bool, the loop
bookkeeping, and the final checkpoint contents written after the loop. -/
structure S1Result where
  ok : Bool
  processedIdx : List Nat
  skippedIdx : List Nat
  savedCursors : List Nat
  finalProgress : Option Nat
  complete : Bool
deriving DecidableEq

/-- One run of s1 from the persisted cursor `startIdx`: fail fast on an
empty input list, otherwise run the loop over `tfs[start_idx:]` and end
with the unconditional completion save (`step1_progress = len(tfs)`,
`step1_complete = True`, return True). -/
def s1Run (items : List TileItem) (startIdx : Nat) : S1Result :=
  if items.isEmpty then
    ⟨false, [], [], [], none, false⟩
  else
    let st := s1Loop (items.drop startIdx) (startIdx + 1) ⟨[], [], []⟩
    ⟨true, st.processedIdx, st.skippedIdx, st.savedCursors ++ [items.length],
      some items.length, true⟩

/-- C4 counterexample: item 1 fails, item 2 succeeds with the checkpoint
interval elapsed; the time-gated save then records cursor 2 > 1 (and the
completion save records 2 as well) while item 1 remains unprocessed, so a
checkpoint does advance past the failed item. -/
theorem s1_cursor_advances_past_failed :
    (s1Run [⟨false, true, false⟩, ⟨false, false, true⟩] 0).savedCursors = [2, 2] ∧
    (2 ∈ (s1Run [⟨false, true, false⟩, ⟨false, false, true⟩] 0).savedCursors) ∧
    1 ∉ (s1Run [⟨false, true, false⟩, ⟨false, false, true⟩] 0).processedIdx ∧
    (⟨false, true, false⟩ : TileItem).fails = true ∧ 1 < 2 := by
  decide

lemma s1Loop_processed_mem :
    ∀ (items : List TileItem) (i : Nat) (st : S1State) (j : Nat),
      j ∈ (s1Loop items i st).processedIdx ↔
        j ∈ st.processedIdx ∨
          (i ≤ j ∧ ∃ a, items[j - i]? = some a ∧
            a.outExists = false ∧ a.fails = false) := by
  intro items
  induction items with
  | nil =>
    intro i st j
    simp [s1Loop]
  | cons a rest ih =>
    intro i st j
    have hshift : ∀ (P : TileItem → Prop),
        (i + 1 ≤ j ∧ ∃ b, rest[j - (i + 1)]? = some b ∧ P b) ∨ (j = i ∧ P a) ↔
          (i ≤ j ∧ ∃ b, (a :: rest)[j - i]? = some b ∧ P b) := by
      intro P
      rcases Nat.lt_trichotomy j i with hj | hj | hj
      · constructor
        · rintro (⟨h1, _⟩ | ⟨h1, _⟩) <;> omega
        · rintro ⟨h1, _⟩; omega
      · subst hj
        have h0 : j - j = 0 := by omega
        simp [h0]
      · have h1 : j - i = (j - (i + 1)) + 1 := by omega
        rw [h1]
        simp only [List.getElem?_cons_succ]
        constructor
        · rintro (⟨_, hb⟩ | ⟨hji, _⟩)
          · exact ⟨by omega, hb⟩
          · omega
        · rintro ⟨_, hb⟩
          exact Or.inl ⟨by omega, hb⟩
    by_cases hex : a.outExists = true
    · simp only [s1Loop, hex, if_true]
      rw [ih]
      simp only []
      rw [← hshift (fun b => b.outExists = false ∧ b.fails = false)]
      constructor
      · rintro (h | h)
        · exact Or.inl h
        · exact Or.inr (Or.inl h)
      · rintro (h | (h | ⟨_, hfa, _⟩))
        · exact Or.inl h
        · exact Or.inr h
        · rw [hex] at hfa; cases hfa
    · by_cases hf : a.fails = true
      · simp only [s1Loop, hex, if_false, hf, if_true, Bool.false_eq_true]
        rw [ih]
        rw [← hshift (fun b => b.outExists = false ∧ b.fails = false)]
        constructor
        · rintro (h | h)
          · exact Or.inl h
          · exact Or.inr (Or.inl h)
        · rintro (h | (h | ⟨_, _, hfb⟩))
          · exact Or.inl h
          · exact Or.inr h
          · rw [hf] at hfb; cases hfb
      · have hmain :
            j ∈ (s1Loop rest (i + 1)
                ⟨st.processedIdx ++ [i], st.skippedIdx, st.savedCursors⟩).processedIdx ↔
              j ∈ st.processedIdx ∨
                (i ≤ j ∧ ∃ b, (a :: rest)[j - i]? = some b ∧
                  b.outExists = false ∧ b.fails = false) ∧ True := by
          rw [ih]
          simp only [List.mem_append, List.mem_singleton, and_true]
          rw [← hshift (fun b => b.outExists = false ∧ b.fails = false)]
          constructor
          · rintro ((h | h) | h)
            · exact Or.inl h
            · exact Or.inr (Or.inr ⟨h, by
                constructor
                · exact Bool.not_eq_true _ ▸ (by revert hex; cases a.outExists <;> simp)
                · exact Bool.not_eq_true _ ▸ (by revert hf; cases a.fails <;> simp)⟩)
            · exact Or.inr (Or.inl h)
          · rintro (h | (h | ⟨hji, _⟩))
            · exact Or.inl (Or.inl h)
            · exact Or.inr h
            · exact Or.inl (Or.inr hji)
        by_cases hel : a.elapsed = true
        · simp only [s1Loop, hex, hf, hel, if_true, if_false, Bool.false_eq_true]
          have hmain2 :
              j ∈ (s1Loop rest (i + 1)
                  ⟨st.processedIdx ++ [i], st.skippedIdx, st.savedCursors ++ [i]⟩).processedIdx ↔
                j ∈ (s1Loop rest (i + 1)
                  ⟨st.processedIdx ++ [i], st.skippedIdx, st.savedCursors⟩).processedIdx := by
            rw [ih, ih]
          rw [hmain2, hmain]
          simp
        · simp only [s1Loop, hex, hf, hel, if_false, Bool.false_eq_true]
          rw [hmain]
          simp

/-- C4 amended: a failed tile is handled locally and the loop proceeds —
across every run, exactly the items after the start cursor whose output
does not pre-exist and whose reprojection does not fail are processed, so
a failed item is never processed and never aborts the rest — but the
persisted stage-1 cursor can advance past a failed item: a time-gated save
after a later successful item, and the unconditional completion save,
record cursors beyond it (shown concretely by the counterexample). -/
theorem s1_processed_characterization (items : List TileItem) (s j : Nat) :
    j ∈ (s1Run items s).processedIdx ↔
      (items ≠ [] ∧ s + 1 ≤ j ∧ ∃ a, (items.drop s)[j - (s + 1)]? = some a ∧
        a.outExists = false ∧ a.fails = false) := by
  unfold s1Run
  cases items with
  | nil => simp
  | cons b rest =>
    simp only [List.isEmpty_cons, if_false, Bool.false_eq_true]
    rw [s1Loop_processed_mem]
    simp

/-- C10 Stage 1 reports failure exactly when the input directory holds no
.tif files; for every non-empty input list it returns success and marks
the stage complete — persisting a cursor equal to the total item count and
the stage-1 complete flag — whatever the per-item outcomes, including runs
in which every single tile's reprojection raises. -/
theorem s1_fails_iff_no_inputs (items : List TileItem) (s : Nat) :
    ((s1Run items s).ok = false ↔ items = []) ∧
    (items ≠ [] →
      (s1Run items s).ok = true ∧
      (s1Run items s).finalProgress = some items.length ∧
      (s1Run items s).complete = true) := by
  cases items with
  | nil => simp [s1Run]
  | cons a rest => simp [s1Run]

/-- C10 witness: a two-item run in which both reprojections fail still
returns success, persists cursor 2 = total count and the complete flag. -/
theorem s1_fails_iff_no_inputs_witness :
    (s1Run [⟨false, true, false⟩, ⟨false, true, true⟩] 0).ok = true ∧
    (s1Run [⟨false, true, false⟩, ⟨false, true, true⟩] 0).finalProgress = some 2 ∧
    (s1Run [⟨false, true, false⟩, ⟨false, true, true⟩] 0).complete = true :=
  (s1_fails_iff_no_inputs [⟨false, true, false⟩, ⟨false, true, true⟩] 0).2 (by decide)

/-! ## Region emission engine
(generate_mca_file lines 314-351 and generate_mca_batch lines 353-402)

generate_mca_file walks the chunk dictionary of one region and, for each
occupied (block_x, block_z) with elevation y, executes a single
`chunk.set_block(stone, block_x, y, block_z)` guarded by
`min_elevation <= y <= 319`.  We embed the built region structure as the
list of chunks with their placed block positions (block_x, y, block_z).

generate_mca_batch groups the batch map by region (organize_by_region's
outer defaultdict level; inside each region the samples are further split
into chunk/block coordinates by `decompose`), then for each region whose
filename `r.{region_x}.{region_z}.mca` is not in the skip-set builds and
saves the region file, adding the filename to the skip-set and counting it
on success and merely logging on a save failure.  The save outcome is an
oracle `saveOk`; `attempted` records every region the engine builds and
opens a file for, `written` the successful saves. -/

/-- The block placements of one chunk of generate_mca_file: one stone block
at (block_x, y, block_z) per occupied column whose elevation lies in the
Minecraft range [min_elevation, 319]. -/
def placeBlocks (blockCoords : List ((Int × Int) × Int)) (minElevation : Int) :
    List (Int × Int × Int) :=
  match blockCoords with
  | [] => []
  | ((bx, bz), y) :: rest =>
    if minElevation ≤ y ∧ y ≤ 319 then (bx, y, bz) :: placeBlocks rest minElevation
    else placeBlocks rest minElevation

/-- The region structure generate_mca_file builds: each chunk of the input
with its placed blocks. -/
def generateMcaFile (chunksData : List ((Int × Int) × List ((Int × Int) × Int)))
    (minElevation : Int) : List ((Int × Int) × List (Int × Int × Int)) :=
  chunksData.map (fun c => (c.1, placeBlocks c.2 minElevation))

/-- C5 counterexample: with floor 0, a single occupied column ((0,0), 2)
yields exactly one block at height 2 — height 1 lies strictly between the
floor and the sampled elevation yet no block is placed there, so the built
region holds no vertical fill from the floor up to the elevation. -/
theorem generateMcaFile_no_vertical_fill :
    generateMcaFile [((3, 4), [((0, 0), 2)])] 0 = [((3, 4), [(0, 2, 0)])] ∧
    (0, 1, 0) ∉ placeBlocks [((0, 0), 2)] 0 ∧
    (0 : Int) ≤ 1 ∧ (1 : Int) ≤ 2 := by
  decide

/-- C5 amended: for every emitted region and occupied column (block_x,
block_z) with sampled elevation y, the built structure contains exactly
one block for that column, at the single height y, and only when y lies in
[floor, 319]; no other height of the column is filled: a position
(bx, h, bz) is placed iff the column carries the sample ((bx, bz), h) and
floor ≤ h ≤ 319. -/
theorem placeBlocks_single_level (blockCoords : List ((Int × Int) × Int))
    (minElevation bx h bz : Int) :
    (bx, h, bz) ∈ placeBlocks blockCoords minElevation ↔
      (((bx, bz), h) ∈ blockCoords ∧ minElevation ≤ h ∧ h ≤ 319) := by
  induction blockCoords with
  | nil => simp [placeBlocks]
  | cons c rest ih =>
    obtain ⟨⟨cx, cz⟩, cy⟩ := c
    simp only [placeBlocks]
    split
    next hy =>
      simp only [List.mem_cons, ih, Prod.mk.injEq]
      constructor
      · rintro (⟨rfl, rfl, rfl⟩ | ⟨h1, h2, h3⟩)
        · exact ⟨Or.inl ⟨⟨rfl, rfl⟩, rfl⟩, hy.1, hy.2⟩
        · exact ⟨Or.inr h1, h2, h3⟩
      · rintro ⟨⟨⟨rfl, rfl⟩, rfl⟩ | h1, h2, h3⟩
        · exact Or.inl ⟨rfl, rfl, rfl⟩
        · exact Or.inr ⟨h1, h2, h3⟩
    next hy =>
      simp only [ih, List.mem_cons, Prod.mk.injEq]
      constructor
      · rintro ⟨h1, h2, h3⟩
        exact ⟨Or.inr h1, h2, h3⟩
      · rintro ⟨⟨⟨rfl, rfl⟩, rfl⟩ | h1, h2, h3⟩
        · exact absurd ⟨h2, h3⟩ hy
        · exact ⟨h1, h2, h3⟩

/-- The region key of one sample, via the partitioner of organize_by_region. -/
def regionKeyOf (c : Sample) : Int × Int := (regionCoord c.1.1, regionCoord c.1.2)

/-- One insertion into the outer region level of organize_by_region's nested
defaultdict: append the sample to its region's group, creating the group
at the end on first touch (dictionary insertion order). -/
def addToRegion : List ((Int × Int) × List Sample) → (Int × Int) → Sample →
    List ((Int × Int) × List Sample)
  | [], rk, c => [(rk, [c])]
  | (k, cs) :: rest, rk, c =>
    if k = rk then (k, cs ++ [c]) :: rest else (k, cs) :: addToRegion rest rk c

/-- The outer level of organize_by_region: the batch map grouped by region
key in first-touch order (each group is further decomposed into chunk and
block coordinates by `decompose` when the region is built). -/
def organizeByRegion (coords : List Sample) : List ((Int × Int) × List Sample) :=
  coords.foldl (fun acc c => addToRegion acc (regionKeyOf c) c) []

/-- The deterministic region filename `r.{region_x}.{region_z}.mca`. -/
def mcaFilename (rk : Int × Int) : String :=
  "r." ++ toString rk.1 ++ "." ++ toString rk.2 ++ ".mca"

/-- The observable outcome of generate_mca_batch: regions whose files were
built and opened, regions successfully written, the returned created
count, and the final skip-set. -/
structure BatchResult where
  attempted : List String
  written : List String
  created : Nat
  skipSet : List String
deriving DecidableEq

/-- The region loop of generate_mca_batch: skip a region whose filename is
already in the skip-set; otherwise build and save it, and on success add
the filename to the skip-set and count it (a save failure is only
logged). -/
def genBatchGo (saveOk : Int × Int → Bool) :
    List ((Int × Int) × List Sample) → BatchResult → BatchResult
  | [], acc => acc
  | (rk, _) :: rest, acc =>
    if mcaFilename rk ∈ acc.skipSet then genBatchGo saveOk rest acc
    else if saveOk rk then
      genBatchGo saveOk rest
        ⟨acc.attempted ++ [mcaFilename rk], acc.written ++ [mcaFilename rk],
          acc.created + 1, acc.skipSet ++ [mcaFilename rk]⟩
    else
      genBatchGo saveOk rest
        ⟨acc.attempted ++ [mcaFilename rk], acc.written, acc.created, acc.skipSet⟩

/-- generate_mca_batch: organize the batch by region, then run the region
loop against the mutable skip-set. -/
def generateMcaBatch (batchCoords : List Sample) (skip : List String)
    (saveOk : Int × Int → Bool) : BatchResult :=
  genBatchGo saveOk (organizeByRegion batchCoords) ⟨[], [], 0, skip⟩

lemma mem_keys_addToRegion (acc : List ((Int × Int) × List Sample))
    (rk : Int × Int) (c : Sample) (k : Int × Int) :
    k ∈ (addToRegion acc rk c).map Prod.fst ↔ k ∈ acc.map Prod.fst ∨ k = rk := by
  induction acc with
  | nil => simp [addToRegion]
  | cons p rest ih =>
    obtain ⟨pk, pcs⟩ := p
    by_cases hpk : pk = rk
    · simp [addToRegion, hpk]
      tauto
    · simp only [addToRegion, hpk, if_false, List.map_cons, List.mem_cons, ih]
      tauto

lemma mem_keys_organizeByRegion (coords : List Sample) (k : Int × Int) :
    k ∈ (organizeByRegion coords).map Prod.fst → ∃ c ∈ coords, regionKeyOf c = k := by
  unfold organizeByRegion
  suffices h : ∀ (acc : List ((Int × Int) × List Sample)),
      k ∈ (coords.foldl (fun acc c => addToRegion acc (regionKeyOf c) c) acc).map Prod.fst →
        k ∈ acc.map Prod.fst ∨ ∃ c ∈ coords, regionKeyOf c = k by
    intro hk
    rcases h [] hk with h1 | h1
    · cases h1
    · exact h1
  induction coords with
  | nil => intro acc hk; exact Or.inl hk
  | cons c rest ih =>
    intro acc hk
    rcases ih (addToRegion acc (regionKeyOf c) c) hk with h1 | h1
    · rcases (mem_keys_addToRegion acc (regionKeyOf c) c k).mp h1 with h2 | h2
      · exact Or.inl h2
      · exact Or.inr ⟨c, List.mem_cons_self c rest, h2.symm⟩
    · obtain ⟨d, hd, hdk⟩ := h1
      exact Or.inr ⟨d, List.mem_cons_of_mem c hd, hdk⟩

lemma genBatchGo_all_skipped (saveOk : Int × Int → Bool) :
    ∀ (regions : List ((Int × Int) × List Sample)) (acc : BatchResult),
      (∀ r ∈ regions, mcaFilename r.1 ∈ acc.skipSet) →
        genBatchGo saveOk regions acc = acc := by
  intro regions
  induction regions with
  | nil => intro acc _; rfl
  | cons r rest ih =>
    intro acc hall
    obtain ⟨rk, cs⟩ := r
    have hr : mcaFilename rk ∈ acc.skipSet := hall (rk, cs) (List.mem_cons_self _ _)
    simp only [genBatchGo, hr, if_true]
    exact ih acc (fun q hq => hall q (List.mem_cons_of_mem _ hq))

lemma genBatchGo_skip_never_attempted (saveOk : Int × Int → Bool) (name : String) :
    ∀ (regions : List ((Int × Int) × List Sample)) (acc : BatchResult),
      name ∈ acc.skipSet → name ∉ acc.attempted →
        name ∉ (genBatchGo saveOk regions acc).attempted := by
  intro regions
  induction regions with
  | nil => intro acc _ hna; exact hna
  | cons r rest ih =>
    intro acc hns hna
    obtain ⟨rk, cs⟩ := r
    by_cases hin : mcaFilename rk ∈ acc.skipSet
    · simp only [genBatchGo, hin, if_true]
      exact ih acc hns hna
    · have hne : mcaFilename rk ≠ name := fun h => hin (h ▸ hns)
      by_cases hok : saveOk rk = true
    <;> simp only [genBatchGo, hin, hok, if_true, if_false, Bool.false_eq_true]
      · refine ih _ (List.mem_append_left _ hns) ?_
        intro hmem
        rcases List.mem_append.mp hmem with h | h
        · exact hna h
        · exact hne (List.mem_singleton.mp h).symm
      · refine ih _ hns ?_
        intro hmem
        rcases List.mem_append.mp hmem with h | h
        · exact hna h
        · exact hne (List.mem_singleton.mp h).symm

/-- C2 For every batch and every skip-set that already contains the region
filename `r.{region_x}.{region_z}.mca` of every region touched by the
batch, generate_mca_batch builds and opens no region file, returns a
created count of 0 and leaves the skip-set unchanged; and in general a
region whose filename is in the initial skip-set is never built, opened or
rewritten by the emission, whatever the save outcomes. -/
theorem generateMcaBatch_skip_contract (batchCoords : List Sample)
    (skip : List String) (saveOk : Int × Int → Bool) :
    ((∀ c ∈ batchCoords, mcaFilename (regionKeyOf c) ∈ skip) →
      generateMcaBatch batchCoords skip saveOk = ⟨[], [], 0, skip⟩) ∧
    (∀ rk : Int × Int, mcaFilename rk ∈ skip →
      mcaFilename rk ∉ (generateMcaBatch batchCoords skip saveOk).attempted) := by
  constructor
  · intro hall
    unfold generateMcaBatch
    refine genBatchGo_all_skipped saveOk _ _ ?_
    intro r hr
    obtain ⟨c, hc, hck⟩ := mem_keys_organizeByRegion batchCoords r.1
      (List.mem_map_of_mem Prod.fst hr)
    exact hck ▸ hall c hc
  · intro rk hrk
    exact genBatchGo_skip_never_attempted saveOk (mcaFilename rk)
      (organizeByRegion batchCoords) ⟨[], [], 0, skip⟩ hrk (by simp)

/-- C2 witness: a one-sample batch in region (0, 0) against a skip-set
already holding "r.0.0.mca" creates nothing, attempts nothing and leaves
the skip-set unchanged. -/
theorem generateMcaBatch_skip_contract_witness :
    generateMcaBatch [((0, 0), 5)] [mcaFilename (0, 0)] (fun _ => true) =
      ⟨[], [], 0, [mcaFilename (0, 0)]⟩ ∧
    mcaFilename (0, 0) ∉
      (generateMcaBatch [((0, 0), 5)] [mcaFilename (0, 0)] (fun _ => true)).attempted := by
  have h := generateMcaBatch_skip_contract [((0, 0), 5)] [mcaFilename (0, 0)] (fun _ => true)
  refine ⟨h.1 ?_, h.2 (0, 0) (by simp)⟩
  intro c hc
  rcases List.mem_singleton.mp hc with rfl
  simp [regionKeyOf, regionCoord, shr]

/-! ## Resume path (get_existing_projects lines 160-175, resume_project
lines 663-683)

Each project directory is embedded by its name and the parse result of its
existing checkpoint document (`none` when `json.load` raises — the
`except: pass` branch — and `some doc` when it parses).  resume_project
asks the user to pick one entry of the listing; `sel` is the chosen index
(an out-of-range index models the user cancelling the prompt, the
`if not sel` branch). -/

/-- get_existing_projects: every project whose checkpoint document parses;
a parse failure hits `except: pass` and the project is dropped. -/
def getExistingProjects (dirs : List (String × Option String)) : List (String × String) :=
  dirs.filterMap (fun p => p.2.map (fun d => (p.1, d)))

/-- What a resume request can end in: the "no projects available" message,
a resumed project, or a cancelled prompt.  The source has no failure
outcome on this path. -/
inductive ResumeOutcome where
  | noProjects
  | resumed (name : String) (ckpt : String)
  | cancelled
deriving DecidableEq

/-- resume_project: print the no-projects message and return when the
listing is empty, otherwise resume the selected entry. -/
def resumeProject (dirs : List (String × Option String)) (sel : Nat) : ResumeOutcome :=
  let ps := getExistingProjects dirs
  if ps.isEmpty then ResumeOutcome.noProjects
  else
    match ps[sel]? with
    | some p => ResumeOutcome.resumed p.1 p.2
    | none => ResumeOutcome.cancelled

/-- C6 counterexample: a project "p" whose checkpoint document exists but
fails to parse is silently dropped from the resume listing, and a resume
request then ends in the non-fatal "no projects available" outcome — no
abort, no report, the project simply vanishes from the resume path. -/
theorem resume_silently_drops_corrupt :
    getExistingProjects [("p", none)] = [] ∧
    resumeProject [("p", none)] 0 = ResumeOutcome.noProjects := by
  constructor <;> rfl

/-- C6 amended: a project whose checkpoint fails to parse is silently
excluded from the resume listing rather than aborting the resume with a
reported error; when every candidate's document is unparseable the resume
path quietly reports that no projects are available. -/
theorem resume_excludes_unparseable (dirs : List (String × Option String)) (sel : Nat)
    (hcorrupt : ∀ p ∈ dirs, p.2 = none) :
    getExistingProjects dirs = [] ∧
    resumeProject dirs sel = ResumeOutcome.noProjects := by
  have hempty : getExistingProjects dirs = [] := by
    unfold getExistingProjects
    rw [List.filterMap_eq_nil_iff]
    intro p hp
    rw [hcorrupt p hp]
    rfl
  refine ⟨hempty, ?_⟩
  unfold resumeProject
  simp [hempty]

/-- C6 amended witness: two corrupt projects yield the empty listing and
the quiet no-projects outcome. -/
theorem resume_excludes_unparseable_witness :
    getExistingProjects [("p", none), ("q", none)] = [] ∧
    resumeProject [("p", none), ("q", none)] 3 = ResumeOutcome.noProjects :=
  resume_excludes_unparseable [("p", none), ("q", none)] 3 (by decide)

end MCTS
